import Mathlib

/-!
Verification of the DICOM metadata extraction pipeline
(`src/dcm_extractor/extractor.py` and `scripts/process_cases_with_timeout.py`).

The Python code is shallowly embedded: dynamically typed field values become
the inductive type `PyVal` (capturing Python truthiness), machine words in the
hash are naturals reduced modulo `2 ^ 32`, and the pandas table operations are
modelled over association lists.
-/

/-- A Python value as it occurs in the metadata records: `None`, a string, or
an integer.  Captures exactly the values the extractor stores in a field. -/
inductive PyVal where
  | none : PyVal
  | str : String → PyVal
  | int : Int → PyVal
deriving DecidableEq, Repr

/-- Python truthiness for `PyVal`: `None`, the empty string and `0` are falsy. -/
def PyVal.truthy : PyVal → Bool
  | .none => false
  | .str s => !(s = "")
  | .int n => !(n = 0)

/-- Python `str()` applied to a `PyVal`. -/
def pyStr : PyVal → String
  | .none => "None"
  | .str s => s
  | .int n => toString n

/-! ## SHA-256 over naturals (embedding of `hashlib.sha256`)

Words are naturals kept below `2 ^ 32`; every arithmetic step reduces
modulo `2 ^ 32` explicitly. -/

/-- The word modulus `2 ^ 32`. -/
def M32 : Nat := 4294967296

/-- Word addition modulo `2 ^ 32`. -/
def add32 (a b : Nat) : Nat := (a + b) % M32

/-- Right rotation of a 32-bit word. -/
def rotr32 (x n : Nat) : Nat := ((x >>> n) ||| (x <<< (32 - n))) % M32

/-- Logical right shift of a 32-bit word. -/
def shr32 (x n : Nat) : Nat := x >>> n

/-- Three-way xor. -/
def xor3 (a b c : Nat) : Nat := (a ^^^ b) ^^^ c

/-- The SHA-256 small sigma-0 schedule function. -/
def ssig0 (x : Nat) : Nat := xor3 (rotr32 x 7) (rotr32 x 18) (shr32 x 3)

/-- The SHA-256 small sigma-1 schedule function. -/
def ssig1 (x : Nat) : Nat := xor3 (rotr32 x 17) (rotr32 x 19) (shr32 x 10)

/-- The SHA-256 big sigma-0 round function. -/
def bsig0 (x : Nat) : Nat := xor3 (rotr32 x 2) (rotr32 x 13) (rotr32 x 22)

/-- The SHA-256 big sigma-1 round function. -/
def bsig1 (x : Nat) : Nat := xor3 (rotr32 x 6) (rotr32 x 11) (rotr32 x 25)

/-- The SHA-256 choice function; complement is xor with the all-ones word. -/
def chWord (x y z : Nat) : Nat := (x &&& y) ^^^ ((x ^^^ 4294967295) &&& z)

/-- The SHA-256 majority function. -/
def majWord (x y z : Nat) : Nat := ((x &&& y) ^^^ (x &&& z)) ^^^ (y &&& z)

/-- The 64 SHA-256 round constants. -/
def sha256K : List Nat :=
  [1116352408, 1899447441, 3049323471, 3921009573, 961987163, 1508970993,
   2453635748, 2870763221, 3624381080, 310598401, 607225278, 1426881987,
   1925078388, 2162078206, 2614888103, 3248222580, 3835390401, 4022224774,
   264347078, 604807628, 770255983, 1249150122, 1555081692, 1996064986,
   2554220882, 2821834349, 2952996808, 3210313671, 3336571891, 3584528711,
   113926993, 338241895, 666307205, 773529912, 1294757372, 1396182291,
   1695183700, 1986661051, 2177026350, 2456956037, 2730485921, 2820302411,
   3259730800, 3345764771, 3516065817, 3600352804, 4094571909, 275423344,
   430227734, 506948616, 659060556, 883997877, 958139571, 1322822218,
   1537002063, 1747873779, 1955562222, 2024104815, 2227730452, 2361852424,
   2428436474, 2756734187, 3204031479, 3329325298]

/-- The SHA-256 initial hash state. -/
def sha256H0 : List Nat :=
  [1779033703, 3144134277, 1013904242, 2773480762, 1359893119, 2600822924,
   528734635, 1541459225]

/-- Extend the message schedule by `n` further words; the accumulator holds the
schedule so far in reverse. -/
def extendW : Nat → List Nat → List Nat
  | 0, acc => acc
  | n + 1, acc =>
      let t := add32 (add32 (ssig1 (acc.getD 1 0)) (acc.getD 6 0))
                     (add32 (ssig0 (acc.getD 14 0)) (acc.getD 15 0))
      extendW n (t :: acc)

/-- The 64-word message schedule of one 16-word block. -/
def schedule (block : List Nat) : List Nat := (extendW 48 block.reverse).reverse

/-- One SHA-256 compression round on the 8-word working state. -/
def roundStep (st : List Nat) (kw : Nat × Nat) : List Nat :=
  match st with
  | [a, b, c, d, e, f, g, h] =>
      let t1 := add32 h (add32 (bsig1 e) (add32 (chWord e f g) (add32 kw.1 kw.2)))
      let t2 := add32 (bsig0 a) (majWord a b c)
      [add32 t1 t2, a, b, c, add32 d t1, e, f, g]
  | other => other

/-- Compress one 16-word block into the running hash state. -/
def compressBlock (h : List Nat) (block : List Nat) : List Nat :=
  let st := (sha256K.zip (schedule block)).foldl roundStep h
  (h.zip st).map (fun p => add32 p.1 p.2)

/-- Group bytes into 32-bit words, big endian. -/
def bytesToWords : List Nat → List Nat
  | b0 :: b1 :: b2 :: b3 :: rest =>
      (((b0 * 256 + b1) * 256 + b2) * 256 + b3) :: bytesToWords rest
  | _ => []

/-- The eight big-endian bytes of the 64-bit message bit length. -/
def lengthBytes (n : Nat) : List Nat :=
  [n >>> 56, n >>> 48, n >>> 40, n >>> 32, n >>> 24, n >>> 16, n >>> 8, n].map
    (fun x => x % 256)

/-- SHA-256 padding: append `0x80`, zeros to 56 mod 64, then the bit length. -/
def padMessage (msg : List Nat) : List Nat :=
  let l := msg.length
  let z := (119 - l % 64) % 64
  msg ++ 128 :: (List.replicate z 0 ++ lengthBytes (8 * l))

/-- Split a word list into 16-word blocks, with fuel for structural recursion. -/
def toBlocksAux : Nat → List Nat → List (List Nat)
  | 0, _ => []
  | _, [] => []
  | fuel + 1, w :: rest => (w :: rest.take 15) :: toBlocksAux fuel (rest.drop 15)

/-- Split a word list into 16-word blocks. -/
def toBlocks (ws : List Nat) : List (List Nat) := toBlocksAux ws.length ws

/-- The SHA-256 digest of a byte list, as eight 32-bit words. -/
def sha256 (msg : List Nat) : List Nat :=
  (toBlocks (bytesToWords (padMessage msg))).foldl compressBlock sha256H0

/-- A hexadecimal digit character. -/
def hexDigit (n : Nat) : Char :=
  if n < 10 then Char.ofNat (48 + n) else Char.ofNat (87 + n)

/-- The eight hex characters of a 32-bit word, most significant first. -/
def wordToHex (w : Nat) : List Char :=
  [w >>> 28, w >>> 24, w >>> 20, w >>> 16, w >>> 12, w >>> 8, w >>> 4, w].map
    (fun x => hexDigit (x % 16))

/-- The 64-character hex digest of a byte list (Python `hexdigest()`). -/
def sha256hex (msg : List Nat) : String :=
  ⟨(sha256 msg).foldr (fun w acc => wordToHex w ++ acc) []⟩

/-- UTF-8 encoding of one character, as bytes. -/
def utf8Bytes (c : Char) : List Nat :=
  let n := c.toNat
  if n < 128 then [n]
  else if n < 2048 then [192 + n / 64, 128 + n % 64]
  else if n < 65536 then [224 + n / 4096, 128 + (n / 64) % 64, 128 + n % 64]
  else [240 + n / 262144, 128 + (n / 4096) % 64, 128 + (n / 64) % 64, 128 + n % 64]

/-- UTF-8 encoding of a string (Python `s.encode("utf-8")`). -/
def strBytes (s : String) : List Nat :=
  s.data.foldr (fun c acc => utf8Bytes c ++ acc) []

/-- Embedding of `desensitize_name`: falsy input is returned unchanged,
otherwise the result is the literal prefix `hash:` followed by the first 16
hex characters of the SHA-256 digest of the UTF-8 encoded name. -/
def desensitize_name (name : PyVal) : PyVal :=
  if name.truthy then
    .str ("hash:" ++ ⟨((sha256hex (strBytes (pyStr name))).data.take 16)⟩)
  else name

/-! ## Age normalization (embedding of `parse_age` in `read_dicom_metadata`)

Python string methods are Unicode aware, so the digit classification is
modelled from the Unicode tables: `str.isdigit` holds for decimal digits
(category Nd) and for digit-typed non-decimals (superscripts and the like),
while `int()` accepts only decimal digits and raises on the rest.  The
`datetime.strptime` format `%Y%m%d` is the regex
`\d\d\d\d` `(1[0-2]|0[1-9]|[1-9])` `(3[01]|[12]\d|0[1-9]|[1-9])` matched with
backtracking and a trailing unconverted-data check, so 6- and 7-digit strings
are also accepted. -/

/-- Start codepoints of the Unicode decimal-digit blocks (category Nd); each
block is ten consecutive characters with decimal values 0 to 9. -/
def ndStarts : List Nat :=
  [48, 1632, 1776, 1984, 2406, 2534, 2662, 2790, 2918, 3046, 3174, 3302,
   3430, 3558, 3664, 3792, 3872, 4160, 4240, 6112, 6160, 6470, 6608, 6784,
   6800, 6992, 7088, 7232, 7248, 42528, 43216, 43264, 43472, 43504, 43600,
   44016, 65296, 66720, 68912, 69734, 69872, 69942, 70096, 70384, 70736,
   70864, 71248, 71360, 71472, 71904, 72016, 72784, 73040, 73120, 92768,
   92864, 93008, 120782, 120792, 120802, 120812, 120822, 123200, 123632,
   125264, 130032]

/-- A Unicode decimal digit (category Nd): what Python `int()` accepts and
what regex `\d` matches. -/
def isNdChar (c : Char) : Bool :=
  ndStarts.any (fun s => s ≤ c.toNat && c.toNat < s + 10)

/-- The decimal value of a decimal digit. -/
def decDigitVal (c : Char) : Nat :=
  match ndStarts.find? (fun s => s ≤ c.toNat && c.toNat < s + 10) with
  | some s => c.toNat - s
  | Option.none => 0

/-- Codepoint ranges (start, length) of the characters for which Python
`str.isdigit` holds although they are not decimal digits (numeric type Digit:
superscripts, subscripts, circled digits and so on); `int()` raises on them. -/
def digitOnlyRanges : List (Nat × Nat) :=
  [(178, 2), (185, 1), (4969, 9), (6618, 1), (8304, 1), (8308, 6), (8320, 10),
   (9312, 9), (9332, 9), (9352, 9), (9450, 1), (9461, 9), (9471, 1),
   (10102, 9), (10112, 9), (10122, 9), (68160, 4), (69216, 9), (69714, 9),
   (127232, 11)]

/-- Python `str.isdigit` on one character: a decimal digit or a digit-typed
non-decimal character. -/
def pyIsDigit (c : Char) : Bool :=
  isNdChar c || digitOnlyRanges.any (fun p => p.1 ≤ c.toNat && c.toNat < p.1 + p.2)

/-- The number denoted by a list of decimal digits. -/
def decDigitsVal (l : List Char) : Nat :=
  l.foldl (fun n c => n * 10 + decDigitVal c) 0

/-- Python `int()` on a collected digit string: succeeds exactly when the
string is non-empty and every character is a decimal digit, and raises
otherwise — in particular on the digit-typed non-decimals that pass
`isdigit`.  (The very large `int_max_str_digits` cut-off of recent CPython is
not modelled.) -/
def pyIntOfDigits (l : List Char) : Option Nat :=
  if !l.isEmpty && l.all isNdChar then some (decDigitsVal l) else Option.none

/-- A calendar date, as produced by `datetime.strptime` with format `%Y%m%d`. -/
structure Date where
  year : Nat
  month : Nat
  day : Nat
deriving DecidableEq, Repr

/-- Gregorian leap year test. -/
def isLeap (y : Nat) : Bool := (y % 4 == 0 && y % 100 != 0) || y % 400 == 0

/-- Days in a month of a given year. -/
def daysInMonth (y m : Nat) : Nat :=
  if m == 2 then (if isLeap y then 29 else 28)
  else if m == 4 || m == 6 || m == 9 || m == 11 then 30
  else 31

/-- The month alternatives of the strptime pattern `1[0-2]|0[1-9]|[1-9]` at a
position, in regex priority order, each with its remaining characters. -/
def monthAlts : List Char → List (Nat × List Char)
  | c1 :: c2 :: rest =>
      (if c1 = '1' ∧ '0' ≤ c2 ∧ c2 ≤ '2' then [(10 + (c2.toNat - 48), rest)] else []) ++
      (if c1 = '0' ∧ '1' ≤ c2 ∧ c2 ≤ '9' then [(c2.toNat - 48, rest)] else []) ++
      (if '1' ≤ c1 ∧ c1 ≤ '9' then [(c1.toNat - 48, c2 :: rest)] else [])
  | [c1] => if '1' ≤ c1 ∧ c1 ≤ '9' then [(c1.toNat - 48, [])] else []
  | [] => []

/-- The day alternatives of the strptime pattern `3[01]|[12]\d|0[1-9]|[1-9]`
(with `\d` any decimal digit), in regex priority order. -/
def dayAlts : List Char → List (Nat × List Char)
  | c1 :: c2 :: rest =>
      (if c1 = '3' ∧ '0' ≤ c2 ∧ c2 ≤ '1' then [(30 + (c2.toNat - 48), rest)] else []) ++
      (if ('1' ≤ c1 ∧ c1 ≤ '2') ∧ isNdChar c2 then
        [((c1.toNat - 48) * 10 + decDigitVal c2, rest)] else []) ++
      (if c1 = '0' ∧ '1' ≤ c2 ∧ c2 ≤ '9' then [(c2.toNat - 48, rest)] else []) ++
      (if '1' ≤ c1 ∧ c1 ≤ '9' then [(c1.toNat - 48, c2 :: rest)] else [])
  | [c1] => if '1' ≤ c1 ∧ c1 ≤ '9' then [(c1.toNat - 48, [])] else []
  | [] => []

/-- Regex backtracking over the month and day alternatives: the first month
alternative at whose remainder some day alternative matches wins, paired with
the first such day alternative. -/
def firstMD : List (Nat × List Char) → Option (Nat × Nat × List Char)
  | [] => Option.none
  | (m, rest2) :: more =>
      match dayAlts rest2 with
      | (d, rest3) :: _ => some (m, d, rest3)
      | [] => firstMD more

/-- Embedding of `datetime.strptime(s, "%Y%m%d")`: four decimal digits of
year, then the month and day patterns with backtracking; the match must
consume the whole string (else `unconverted data remains` is raised), and the
`datetime` constructor validates the year from 1 and the day against the
month length.  Backtracking admits 6- and 7-digit strings: `198011` parses as
1980-01-01 and `1980111` as 1980-11-01.  Any failure raised here is caught by
`parse_age`. -/
def strptimeYMD (s : String) : Option Date :=
  match s.data with
  | y1 :: y2 :: y3 :: y4 :: rest =>
      if isNdChar y1 && isNdChar y2 && isNdChar y3 && isNdChar y4 then
        let y := decDigitsVal [y1, y2, y3, y4]
        match firstMD (monthAlts rest) with
        | some (m, d, rest3) =>
            if rest3 = [] then
              if 1 ≤ y ∧ d ≤ daysInMonth y m then some ⟨y, m, d⟩ else Option.none
            else Option.none
        | Option.none => Option.none
      else Option.none
  | _ => Option.none

/-- Embedding of the nested `parse_age` function: from a truthy raw value,
collect the characters passing Python `isdigit`; if any remain, return their
`int` value, falling through when `int` raises; otherwise derive the age from
the two dates when both are truthy and parse under strptime; else `None`. -/
def parse_age (age_val birth study : PyVal) : Option Int :=
  let tier1 : Option Int :=
    if age_val.truthy then
      let digits := (pyStr age_val).data.filter pyIsDigit
      if digits.isEmpty then Option.none
      else
        match pyIntOfDigits digits with
        | some n => some (n : Int)
        | Option.none => Option.none
    else Option.none
  match tier1 with
  | some n => some n
  | Option.none =>
      if birth.truthy && study.truthy then
        match strptimeYMD (pyStr birth), strptimeYMD (pyStr study) with
        | some b, some s =>
            some ((s.year : Int) - (b.year : Int) -
              (if s.month < b.month ∨ (s.month = b.month ∧ s.day < b.day)
               then 1 else 0))
        | _, _ => Option.none
      else Option.none

/-- Whole calendar years from `b` to `s`, written the way the spec states it:
the year difference, minus one when the birthday has not yet been reached. -/
def wholeYearsElapsed (b s : Date) : Int :=
  if b.month < s.month ∨ (b.month = s.month ∧ b.day ≤ s.day) then
    (s.year : Int) - (b.year : Int)
  else (s.year : Int) - (b.year : Int) - 1

/-- The amended two-tier algorithm in spec wording: the integer value of the
collected `isdigit` characters when the raw value is truthy and `int` accepts
them; otherwise calendar arithmetic on two strptime-parseable dates when both
are present; otherwise null. -/
def ageSpec (age_val birth study : PyVal) : Option Int :=
  match (if age_val.truthy then
          pyIntOfDigits ((pyStr age_val).data.filter pyIsDigit)
         else Option.none) with
  | some n => some (n : Int)
  | Option.none =>
      if birth.truthy ∧ study.truthy then
        match strptimeYMD (pyStr birth), strptimeYMD (pyStr study) with
        | some b, some s => some (wholeYearsElapsed b s)
        | _, _ => Option.none
      else Option.none

/-! ## Archive aggregation (the `.zip` branch of `extract_case_metadata`) -/

/-- The twelve aggregated metadata fields (all record fields except the file
name, which the aggregation loop skips). -/
inductive MField where
  | patientName | patientID | patientBirthDate | patientAge | patientSex
  | studyInstanceUID | seriesInstanceUID | studyDate | modality
  | manufacturer | rowsF | columnsF
deriving DecidableEq, Repr

/-- One per-file metadata record as returned by `read_dicom_metadata`. -/
structure Meta where
  fileName : String
  patientName : PyVal
  patientID : PyVal
  patientBirthDate : PyVal
  patientAge : PyVal
  patientSex : PyVal
  studyInstanceUID : PyVal
  seriesInstanceUID : PyVal
  studyDate : PyVal
  modality : PyVal
  manufacturer : PyVal
  rowsVal : PyVal
  columnsVal : PyVal
deriving DecidableEq, Repr

/-- Field access on a record. -/
def Meta.get (m : Meta) : MField → PyVal
  | .patientName => m.patientName
  | .patientID => m.patientID
  | .patientBirthDate => m.patientBirthDate
  | .patientAge => m.patientAge
  | .patientSex => m.patientSex
  | .studyInstanceUID => m.studyInstanceUID
  | .seriesInstanceUID => m.seriesInstanceUID
  | .studyDate => m.studyDate
  | .modality => m.modality
  | .manufacturer => m.manufacturer
  | .rowsF => m.rowsVal
  | .columnsF => m.columnsVal

/-- The aggregation dictionary: per field, `none` while the key is absent. -/
def AggState := MField → Option PyVal

/-- The empty aggregation dictionary. -/
def initAgg : AggState := fun _ => Option.none

/-- One update of a dictionary slot: `if k not in agg or not agg[k]: agg[k] = v`. -/
def aggField (a : Option PyVal) (v : PyVal) : Option PyVal :=
  match a with
  | Option.none => some v
  | some w => if w.truthy then some w else some v

/-- Fold one successfully read record into the aggregation dictionary. -/
def aggStep (st : AggState) (m : Meta) : AggState :=
  fun f => aggField (st f) (m.get f)

/-- The series-identifier set: `if sid: series_uids.add(sid)`, kept as an
insertion-ordered duplicate-free list. -/
def insertUid (acc : List PyVal) (v : PyVal) : List PyVal :=
  if v.truthy then (if v ∈ acc then acc else acc ++ [v]) else acc

/-- The inner loop over extracted archive entries: a `none` entry is a file
whose decode raised (caught and logged); a `some` entry was read successfully
and bumps the image count, contributes its series identifier, and is folded
into the aggregation dictionary. -/
def zipFold (inners : List (Option Meta)) : AggState × Nat × List PyVal :=
  inners.foldl
    (fun st im =>
      match im with
      | Option.none => st
      | some m => (aggStep st.1 m, st.2.1 + 1, insertUid st.2.2 m.seriesInstanceUID))
    (initAgg, 0, [])

/-- Python `dict.get`: absent key reads as `None`. -/
def optGet (o : Option PyVal) : PyVal := o.getD PyVal.none

/-- A table row, as an ordered association list of column name and value. -/
abbrev Row := List (String × PyVal)

/-- First value stored under a column name; an absent column reads as null. -/
def lookupD (r : Row) (c : String) : PyVal :=
  match r.find? (fun p => p.1 == c) with
  | some p => p.2
  | Option.none => PyVal.none

/-- Embedding of the `.zip` branch: aggregate the extracted entries, skip the
archive when nothing was readable, otherwise build the single aggregate row
(including the representative series identifier, rows and columns filled only
when truthy, and the two count fields). -/
def zipAggRow (project_id : PyVal) (zipName : String)
    (inners : List (Option Meta)) : Option Row :=
  let r := zipFold inners
  let agg := r.1
  let image_count := r.2.1
  let series_uids := r.2.2
  if image_count == 0 then none
  else some
    [("ProjectID", project_id),
     ("FileName", PyVal.str zipName),
     ("PatientName", optGet (agg .patientName)),
     ("PatientID", optGet (agg .patientID)),
     ("PatientBirthDate", optGet (agg .patientBirthDate)),
     ("PatientAge", optGet (agg .patientAge)),
     ("PatientSex", optGet (agg .patientSex)),
     ("StudyInstanceUID", optGet (agg .studyInstanceUID)),
     ("SeriesInstanceUID",
       if (optGet (agg .seriesInstanceUID)).truthy
       then optGet (agg .seriesInstanceUID) else PyVal.none),
     ("StudyDate", optGet (agg .studyDate)),
     ("Modality", optGet (agg .modality)),
     ("Manufacturer", optGet (agg .manufacturer)),
     ("Rows", if (optGet (agg .rowsF)).truthy then optGet (agg .rowsF) else PyVal.none),
     ("Columns", if (optGet (agg .columnsF)).truthy then optGet (agg .columnsF) else PyVal.none),
     ("ImageCount", PyVal.int image_count),
     ("SeriesCount", PyVal.int series_uids.length)]

/-- Per-field aggregation of a value sequence, as the dictionary loop performs
it: the slot starts absent and each value lands in it unless the slot already
holds a truthy value. -/
def aggregateField (vs : List PyVal) : Option PyVal :=
  vs.foldl aggField Option.none

/-- The value the claim predicts for a field: the first non-null value of the
sequence. -/
def firstNonNull (vs : List PyVal) : Option PyVal :=
  vs.find? (fun v => !(v == PyVal.none))

/-- The value the code actually keeps: the first truthy value, and when no
value is truthy, the last value of the sequence. -/
def firstTruthyElseLast (vs : List PyVal) : Option PyVal :=
  match vs.find? PyVal.truthy with
  | some v => some v
  | Option.none => vs.getLast?

/-- A record carrying only a file name, a patient name and a series
identifier, every other tag absent — used for concrete aggregation runs. -/
def simpleMeta (fn : String) (pn sid : PyVal) : Meta :=
  ⟨fn, pn, PyVal.none, PyVal.none, PyVal.none, PyVal.none, PyVal.none, sid,
   PyVal.none, PyVal.none, PyVal.none, PyVal.none, PyVal.none⟩

/-- A concrete archive content: three decodable files with series identifiers
S1, S1, S2, plus one entry whose decode fails. -/
def cexInners : List (Option Meta) :=
  [some (simpleMeta "f1" (PyVal.str "P") (PyVal.str "S1")),
   some (simpleMeta "f2" (PyVal.str "P") (PyVal.str "S1")),
   some (simpleMeta "f3" (PyVal.str "P") (PyVal.str "S2")),
   Option.none]

/-- The aggregate row the code produces for `cexInners`. -/
def cexRow : Row :=
  [("ProjectID", PyVal.none), ("FileName", PyVal.str "case.zip"),
   ("PatientName", PyVal.str "P"), ("PatientID", PyVal.none),
   ("PatientBirthDate", PyVal.none), ("PatientAge", PyVal.none),
   ("PatientSex", PyVal.none), ("StudyInstanceUID", PyVal.none),
   ("SeriesInstanceUID", PyVal.str "S1"), ("StudyDate", PyVal.none),
   ("Modality", PyVal.none), ("Manufacturer", PyVal.none),
   ("Rows", PyVal.none), ("Columns", PyVal.none),
   ("ImageCount", PyVal.int 3), ("SeriesCount", PyVal.int 2)]

/-! ## Column-schema enforcement (tail of `extract_case_metadata`) -/

/-- The fixed output schema `FIXED_COLUMNS`. -/
def FIXED_COLUMNS : List String :=
  ["ProjectID", "FileName", "PatientName", "PatientID", "StudyDate",
   "PatientBirthDate", "PatientAge", "PatientSex", "StudyInstanceUID",
   "SeriesInstanceUID", "Modality", "Manufacturer", "Rows", "Columns",
   "ImageCount", "SeriesCount"]

/-- A data frame: an ordered column list and one materialized row per record. -/
structure DF where
  cols : List String
  rows : List Row
deriving DecidableEq, Repr

/-- Materialize a row on a given column list (missing columns become null). -/
def selectCols (cs : List String) (r : Row) : Row :=
  cs.map (fun c => (c, lookupD r c))

/-- Append a key to a key list unless already present. -/
def addKey (acc : List String) (k : String) : List String :=
  if k ∈ acc then acc else acc ++ [k]

/-- Accumulate the keys of one record. -/
def addRowKeys (acc : List String) (r : Row) : List String :=
  r.foldl (fun a p => addKey a p.1) acc

/-- Column set of `pd.DataFrame(rows)`: union of the record keys in order of
first appearance. -/
def unionKeys (records : List Row) : List String :=
  records.foldl addRowKeys []

/-- Embedding of `pd.DataFrame(rows)`. -/
def mkDF (records : List Row) : DF :=
  ⟨unionKeys records, records.map (selectCols (unionKeys records))⟩

/-- Embedding of `df.reindex(columns=cs)`: the new column list, each row
materialized on it. -/
def reindexDF (df : DF) (cs : List String) : DF :=
  ⟨cs, df.rows.map (selectCols cs)⟩

/-- One step of the legacy reorder: `PatientID` pulls `StudyDate` in directly
behind it, `StudyDate` itself is skipped, anything else is appended once. -/
def desStep (desired : List String) (c : String) : List String :=
  if c = "PatientID" then desired ++ ["PatientID", "StudyDate"]
  else if c = "StudyDate" then desired
  else if c ∈ desired then desired else desired ++ [c]

/-- The legacy column order: `StudyDate` moved to directly after `PatientID`. -/
def desiredOrder (cols : List String) : List String := cols.foldl desStep []

/-- The guarded legacy reordering step of `extract_case_metadata`. -/
def reorderSD (df : DF) : DF :=
  if "PatientID" ∈ df.cols ∧ "StudyDate" ∈ df.cols then
    reindexDF df (desiredOrder df.cols)
  else df

/-- Embedding of the guarded `df[c] = None` inside the fixed-column loop. -/
def addCol (df : DF) (c : String) : DF :=
  if c ∈ df.cols then df
  else ⟨df.cols ++ [c], df.rows.map (fun r => r ++ [(c, PyVal.none)])⟩

/-- The loop adding every missing fixed column as null. -/
def addFixed (df : DF) : DF := FIXED_COLUMNS.foldl addCol df

/-- The step moving `ProjectID` to the front of the column list. -/
def moveProjFirst (df : DF) : DF :=
  if "ProjectID" ∈ df.cols then
    match df.cols with
    | c0 :: _ =>
        if c0 = "ProjectID" then df
        else reindexDF df ("ProjectID" :: df.cols.erase "ProjectID")
    | [] => df
  else df

/-- The whole schema-enforcement tail of `extract_case_metadata`: build the
frame from the collected rows, apply the legacy reorder, add missing fixed
columns as null, move the identifier first, and reindex to the fixed schema. -/
def extract_case_metadata (records : List Row) : DF :=
  reindexDF (moveProjFirst (addFixed (reorderSD (mkDF records)))) FIXED_COLUMNS

/-- Invariant tying a materialized row to its source record: every column
reads the same value, and columns outside the frame read null in the source. -/
def rowInv (K : List String) (r' r : Row) : Prop :=
  (∀ c, lookupD r' c = lookupD r c) ∧ ∀ c, c ∉ K → lookupD r c = PyVal.none

/-- Invariant tying a frame to the source records, row by row. -/
def dfInv (df : DF) (records : List Row) : Prop :=
  List.Forall₂ (rowInv df.cols) df.rows records

/-! ## Identity map (`scripts/process_cases_with_timeout.py`) -/

/-- The persistent case-name to identifier mapping, insertion ordered. -/
abbrev IdMap := List (String × Nat)

/-- Dictionary lookup of a case name. -/
def lookupName (m : IdMap) (name : String) : Option Nat :=
  (m.find? (fun p => p.1 == name)).map Prod.snd

/-- Python `max(projectid_map.values(), default=0)`. -/
def maxValue (m : IdMap) : Nat := (m.map Prod.snd).foldl max 0

/-- Embedding of the per-case identifier assignment in the main loop: an
existing name keeps its identifier; a new name takes the successor of the
running maximum and is recorded.  Returns the identifier, the updated map and
the updated running maximum. -/
def get_or_create (m : IdMap) (max_existing : Nat) (name : String) :
    Nat × IdMap × Nat :=
  match lookupName m name with
  | some pid => (pid, m, max_existing)
  | Option.none => (max_existing + 1, m ++ [(name, max_existing + 1)], max_existing + 1)

/-- Modelled from the spec: `extractor.load_projectid_map` is called at
`scripts/process_cases_with_timeout.py` line 64 but is not defined anywhere
under `src/`; per the spec, loading returns the stored mapping and an absent
or unreadable store yields the empty mapping without failing the caller.  The
store is `none` when the path is absent or unreadable. -/
def load_projectid_map (store : Option IdMap) : IdMap := store.getD []

/-- Modelled from the spec: `extractor.save_projectid_map` is called at
`scripts/process_cases_with_timeout.py` line 151 but is not defined anywhere
under `src/`; per the spec, saving persists the mapping to the path. -/
def save_projectid_map (m : IdMap) : Option IdMap := some m

/-! ## Timeout orchestration (`scripts/process_cases_with_timeout.py`) -/

/-- The observable fate of one case worker process: it either was still
running when the budget elapsed (possibly having already written a temporary
CSV, which the orchestrator must discard), or it finished in time (having
written its table to the temporary CSV, or nothing on failure). -/
inductive WorkerResult where
  | timedOut (tmpOut : Option (List Row)) : WorkerResult
  | finished (tmpOut : Option (List Row)) : WorkerResult
deriving DecidableEq, Repr

/-- Embedding of the per-case loop: on timeout the worker is terminated, the
temporary file is deleted unread, the case name is recorded in the timeout
summary and the loop continues; on normal completion the temporary file, if
present, is read and appended to the merged parts.  Returns the merged parts
and the timeout summary. -/
def caseStep (acc : List (List Row) × List String) (cw : String × WorkerResult) :
    List (List Row) × List String :=
  match cw.2 with
  | .timedOut _ => (acc.1, acc.2 ++ [cw.1])
  | .finished Option.none => acc
  | .finished (some t) => (acc.1 ++ [t], acc.2)

/-- The whole per-case loop over a batch. -/
def processCases (cases : List (String × WorkerResult)) :
    List (List Row) × List String :=
  cases.foldl caseStep ([], [])

/-- The merged output rows: concatenation of all collected per-case tables. -/
def mergedRows (cases : List (String × WorkerResult)) : List Row :=
  (processCases cases).1.flatten

/-! ## Case directory iteration (`iter_case_dirs` and the main loop) -/

/-- One directory entry of the data root. -/
structure DirEntry where
  name : String
  isDir : Bool
deriving DecidableEq, Repr

/-- Name order on directory entries, as Python compares the paths of two
entries of the same directory. -/
def entryLE (a b : DirEntry) : Prop := a.name ≤ b.name

instance : DecidableRel entryLE := fun a b =>
  decidable_of_iff (a.name.toList ≤ b.name.toList) (String.le_iff_toList_le).symm

/-- Embedding of `iter_case_dirs`: sort the entries of the data root, keep the
directories, yield their names. -/
def iter_case_dirs (entries : List DirEntry) : List String :=
  ((List.insertionSort entryLE entries).filter (fun e => e.isDir)).map (fun e => e.name)

/-- The `ProjectID` assignment of the extractor main loop:
`enumerate(iter_case_dirs(data_root), start=1)`. -/
def assignProjectIds (entries : List DirEntry) : List (Nat × String) :=
  List.enumFrom 1 (iter_case_dirs entries)

/-! ## Validation of the hash embedding against published SHA-256 vectors -/

/-- The NIST test vector for the message `abc`. -/
theorem sha256hex_abc :
    sha256hex (strBytes "abc") =
      "ba7816bf8f01cfea414140de5dae2223b00361a396177a9cb410ff61f20015ad" := by
  decide

/-- The digest of the empty message. -/
theorem sha256hex_empty :
    sha256hex (strBytes "") =
      "e3b0c44298fc1c149afbf4c8996fb92427ae41e4649b934ca495991b7852b855" := by
  decide

/-! ## C2: age normalization -/

/-- The program subtraction form of the year count equals the spec form. -/
theorem years_ite_eq (db ds : Date) :
    (ds.year : Int) - (db.year : Int) -
      (if ds.month < db.month ∨ (ds.month = db.month ∧ ds.day < db.day)
       then 1 else 0) =
    wholeYearsElapsed db ds := by
  unfold wholeYearsElapsed
  split_ifs <;> omega

/-- Counterexample for C2: the six-character birth value `198011` is not an
eight-digit date, yet strptime backtracking parses it as 1980-01-01, so the
program answers 40 where the claim requires null. -/
theorem parse_age_eight_digit_cex :
    parse_age PyVal.none (PyVal.str "198011") (PyVal.str "20200101") = some 40 ∧
    ("198011" : String).length = 6 := by
  exact ⟨by decide, rfl⟩

/-- C2 (amended): the two-tier algorithm with faithful Python semantics — a
truthy raw value whose collected `isdigit` characters survive `int()` yields
that integer (an `int` failure on non-decimal digits falls through); else two
values parseable under strptime `%Y%m%d` semantics, which also accepts 6- and
7-digit strings, give whole calendar years, minus one before the birthday;
else null, with no other fallback.  Includes the concrete examples. -/
theorem parse_age_algorithm :
    (∀ a b s, parse_age a b s = ageSpec a b s) ∧
    (∀ b s, parse_age (PyVal.str "043Y") b s = some 43) ∧
    parse_age PyVal.none (PyVal.str "19800101") (PyVal.str "20200101") = some 40 ∧
    parse_age PyVal.none (PyVal.str "19800601") (PyVal.str "20200101") = some 39 ∧
    parse_age PyVal.none (PyVal.str "198011") (PyVal.str "20200101") = some 40 ∧
    parse_age (PyVal.str "4²Y") (PyVal.str "19800101") (PyVal.str "20200101") = some 40 ∧
    parse_age PyVal.none PyVal.none PyVal.none = none := by
  refine ⟨?_, ?_, by decide, by decide, by decide, by decide, by decide⟩
  · intro a b s
    unfold parse_age ageSpec
    have hdates :
        (if (b.truthy && s.truthy) = true then
          match strptimeYMD (pyStr b), strptimeYMD (pyStr s) with
          | some db, some ds =>
              some ((ds.year : Int) - (db.year : Int) -
                (if ds.month < db.month ∨ (ds.month = db.month ∧ ds.day < db.day)
                 then 1 else 0))
          | _, _ => (Option.none : Option Int)
         else Option.none) =
        (if b.truthy = true ∧ s.truthy = true then
          match strptimeYMD (pyStr b), strptimeYMD (pyStr s) with
          | some db, some ds => some (wholeYearsElapsed db ds)
          | _, _ => (Option.none : Option Int)
         else Option.none) := by
      by_cases hb : b.truthy <;> by_cases hs : s.truthy <;>
        simp only [hb, hs, Bool.and_self, Bool.and_false, Bool.false_and,
          and_self, and_false, false_and, if_true, if_false,
          Bool.false_eq_true, true_and, and_true]
      cases strptimeYMD (pyStr b) <;> cases strptimeYMD (pyStr s) <;>
        simp only []
      rename_i db ds
      rw [years_ite_eq]
    cases ht : a.truthy with
    | false => simpa only [ht, Bool.false_eq_true, if_false] using hdates
    | true =>
        cases hint : pyIntOfDigits ((pyStr a).data.filter pyIsDigit) with
        | none =>
            cases hd : ((pyStr a).data.filter pyIsDigit).isEmpty with
            | true => simpa only [ht, if_true, hd, hint] using hdates
            | false =>
                simpa only [ht, if_true, hd, Bool.false_eq_true, if_false, hint]
                  using hdates
        | some n =>
            have hne : ((pyStr a).data.filter pyIsDigit).isEmpty = false := by
              cases hl : (pyStr a).data.filter pyIsDigit with
              | nil => rw [hl] at hint; simp [pyIntOfDigits] at hint
              | cons x xs => rfl
            simp only [ht, if_true, hne, Bool.false_eq_true, if_false, hint]
  · intro b s
    rfl

/-! ## C8, C9: the desensitizer -/

/-- One compression round keeps the working state eight words long. -/
theorem roundStep_length (st : List Nat) (kw : Nat × Nat) (h : st.length = 8) :
    (roundStep st kw).length = 8 := by
  rcases st with _ | ⟨a, _ | ⟨b, _ | ⟨c, _ | ⟨d, _ | ⟨e, _ | ⟨f, _ | ⟨g, _ | ⟨h8, _ | ⟨i, t⟩⟩⟩⟩⟩⟩⟩⟩⟩ <;>
    simp_all [roundStep]

/-- The round fold keeps the working state eight words long. -/
theorem foldl_roundStep_length (l : List (Nat × Nat)) (st : List Nat)
    (h : st.length = 8) : (l.foldl roundStep st).length = 8 := by
  induction l generalizing st with
  | nil => exact h
  | cons kw l ih => exact ih _ (roundStep_length st kw h)

/-- Block compression keeps the hash state eight words long. -/
theorem compressBlock_length (h : List Nat) (block : List Nat)
    (hl : h.length = 8) : (compressBlock h block).length = 8 := by
  unfold compressBlock
  simp [List.length_zip, hl,
    foldl_roundStep_length (sha256K.zip (schedule block)) h hl]

/-- The block fold keeps the hash state eight words long. -/
theorem foldl_compressBlock_length (blocks : List (List Nat)) (st : List Nat)
    (h : st.length = 8) : (blocks.foldl compressBlock st).length = 8 := by
  induction blocks generalizing st with
  | nil => exact h
  | cons b bs ih => exact ih _ (compressBlock_length _ b h)

/-- A SHA-256 digest is eight words. -/
theorem sha256_length (msg : List Nat) : (sha256 msg).length = 8 := by
  unfold sha256
  exact foldl_compressBlock_length _ _ (by decide)

/-- Length of the hex rendering fold. -/
theorem hexFold_length (ws : List Nat) :
    (ws.foldr (fun w acc => wordToHex w ++ acc) []).length = 8 * ws.length := by
  induction ws with
  | nil => rfl
  | cons w ws ih =>
      simp only [List.foldr_cons, List.length_append, ih, List.length_cons]
      have hw : (wordToHex w).length = 8 := by simp [wordToHex]
      omega

/-- A hex digest is 64 characters long. -/
theorem sha256hex_length (msg : List Nat) : (sha256hex msg).length = 64 := by
  show (sha256hex msg).data.length = 64
  unfold sha256hex
  simp only []
  rw [hexFold_length, sha256_length]

/-- Every character of a hex digest is a lowercase hexadecimal digit. -/
theorem sha256hex_chars (msg : List Nat) :
    ∀ c ∈ (sha256hex msg).data, c ∈ ("0123456789abcdef").data := by
  unfold sha256hex
  show ∀ c ∈ (sha256 msg).foldr (fun w acc => wordToHex w ++ acc) [], _
  generalize sha256 msg = ws
  induction ws with
  | nil => intro c hc; cases hc
  | cons w ws ih =>
      intro c hc
      simp only [List.foldr_cons, List.mem_append] at hc
      rcases hc with hc | hc
      · simp only [wordToHex, List.mem_map, List.mem_cons] at hc
        obtain ⟨x, _, rfl⟩ := hc
        have hx : x % 16 < 16 := Nat.mod_lt _ (by norm_num)
        revert hx
        generalize x % 16 = n
        revert n
        decide
      · exact ih c hc

/-- C8: the desensitizer returns null and the empty string unchanged, and maps
every non-empty name to the literal prefix `hash:` followed by exactly the
first 16 hexadecimal characters of the 64-character SHA-256 hex digest of the
UTF-8 encoded name. -/
theorem desensitize_name_spec :
    desensitize_name PyVal.none = PyVal.none ∧
    desensitize_name (PyVal.str "") = PyVal.str "" ∧
    ∀ s : String, s ≠ "" →
      desensitize_name (PyVal.str s) =
        PyVal.str ("hash:" ++ ⟨(sha256hex (strBytes s)).data.take 16⟩) ∧
      (sha256hex (strBytes s)).length = 64 ∧
      ((sha256hex (strBytes s)).data.take 16).length = 16 ∧
      ∀ c ∈ (sha256hex (strBytes s)).data, c ∈ ("0123456789abcdef").data := by
  refine ⟨rfl, rfl, ?_⟩
  intro s hs
  refine ⟨?_, sha256hex_length _, ?_, sha256hex_chars _⟩
  · unfold desensitize_name
    have : (PyVal.str s).truthy = true := by
      simp [PyVal.truthy, hs]
    rw [this]
    rfl
  · have h64 : (sha256hex (strBytes s)).data.length = 64 := sha256hex_length _
    simp [List.length_take, h64]

/-- Witness for C8 at the concrete name `Alice`. -/
theorem desensitize_name_spec_witness :
    "Alice" ≠ "" ∧
    desensitize_name (PyVal.str "Alice") =
      PyVal.str ("hash:" ++ ⟨(sha256hex (strBytes "Alice")).data.take 16⟩) ∧
    desensitize_name (PyVal.str "Alice") = PyVal.str "hash:3bc51062973c458d" :=
  ⟨by decide, (desensitize_name_spec.2.2 "Alice" (by decide)).1, by decide⟩

/-! ## C3, C4: archive aggregation -/

/-- Projecting the dictionary fold onto one field gives the per-field fold. -/
theorem aggStep_proj (ms : List Meta) (st : AggState) (f : MField) :
    (ms.foldl aggStep st) f = (ms.map (fun m => m.get f)).foldl aggField (st f) := by
  induction ms generalizing st with
  | nil => rfl
  | cons m ms ih => simp only [List.foldl_cons, List.map_cons, ih, aggStep]

/-- Last element of a nonempty list via the default form. -/
theorem getLast?_cons_eq (a : PyVal) (l : List PyVal) :
    (a :: l).getLast? = some (l.getLastD a) := by
  induction l generalizing a with
  | nil => rfl
  | cons b t ih => rw [List.getLast?_cons_cons, ih, List.getLastD_cons]

/-- The per-field fold from a filled slot: a truthy occupant stays, otherwise
the slot walks the sequence until a truthy value arrives, else keeps the last. -/
theorem foldl_aggField_some (vs : List PyVal) :
    ∀ a : PyVal, vs.foldl aggField (some a) =
      if a.truthy then some a
      else
        match vs.find? PyVal.truthy with
        | some v => some v
        | Option.none => some (vs.getLastD a) := by
  induction vs with
  | nil => intro a; split <;> rfl
  | cons v vs ih =>
      intro a
      by_cases ha : a.truthy
      · simp only [List.foldl_cons, aggField, ha, if_true, ih, List.find?]
      · simp only [List.foldl_cons, aggField, ha, Bool.false_eq_true, if_false,
          List.find?_cons, ih]
        by_cases hv : v.truthy
        · simp [hv]
        · simp only [hv, Bool.false_eq_true, if_false]
          cases hfind : List.find? PyVal.truthy vs
          · simp only [hfind]
            rw [List.getLastD_cons]
          · simp [hfind]

/-- The per-field aggregation keeps the first truthy value, else the last. -/
theorem aggregateField_eq (vs : List PyVal) :
    aggregateField vs = firstTruthyElseLast vs := by
  cases vs with
  | nil => rfl
  | cons v vs =>
      unfold aggregateField firstTruthyElseLast
      simp only [List.foldl_cons, aggField, foldl_aggField_some, List.find?_cons]
      by_cases hv : v.truthy
      · simp [hv]
      · simp only [hv, Bool.false_eq_true, if_false, getLast?_cons_eq]

/-- Unrolling the archive loop: the dictionary is the fold over the readable
records, the image count their number, the series list the identifier fold. -/
theorem zipFold_eq_aux (inners : List (Option Meta)) :
    ∀ (ag : AggState) (n : Nat) (acc : List PyVal),
      inners.foldl
        (fun st im =>
          match im with
          | Option.none => st
          | some m => (aggStep st.1 m, st.2.1 + 1, insertUid st.2.2 m.seriesInstanceUID))
        (ag, n, acc) =
      ((inners.filterMap id).foldl aggStep ag,
       n + (inners.filterMap id).length,
       ((inners.filterMap id).map (fun m => m.seriesInstanceUID)).foldl insertUid acc) := by
  induction inners with
  | nil => intro ag n acc; simp
  | cons im rest ih =>
      intro ag n acc
      cases im with
      | none =>
          show List.foldl _ (ag, n, acc) rest = _
          rw [ih]
          simp only [List.filterMap_cons, id_eq]
      | some m =>
          show List.foldl _ (aggStep ag m, n + 1, insertUid acc m.seriesInstanceUID) rest = _
          rw [ih]
          simp only [List.filterMap_cons, id_eq, List.foldl_cons, List.map_cons,
            List.length_cons, Prod.mk.injEq, true_and, and_true]
          omega

/-- The archive loop in closed form. -/
theorem zipFold_eq (inners : List (Option Meta)) :
    zipFold inners =
      ((inners.filterMap id).foldl aggStep initAgg,
       (inners.filterMap id).length,
       ((inners.filterMap id).map (fun m => m.seriesInstanceUID)).foldl insertUid []) := by
  unfold zipFold
  rw [zipFold_eq_aux]
  simp

/-- The collected series identifiers, as a set: the truthy values seen. -/
theorem foldl_insertUid_toFinset (l : List PyVal) :
    ∀ acc : List PyVal,
      (l.foldl insertUid acc).toFinset =
        acc.toFinset ∪ (l.filter PyVal.truthy).toFinset := by
  induction l with
  | nil => intro acc; simp
  | cons v l ih =>
      intro acc
      simp only [List.foldl_cons, ih, List.filter_cons]
      by_cases hv : v.truthy
      · simp only [hv, if_true, insertUid]
        by_cases hm : v ∈ acc
        · simp only [hm, if_true, List.toFinset_cons]
          ext x
          simp only [Finset.mem_union, List.mem_toFinset, Finset.mem_insert]
          constructor
          · tauto
          · rintro (h | rfl | h)
            · tauto
            · exact Or.inl hm
            · tauto
        · simp only [hm, if_false, List.toFinset_append, List.toFinset_cons]
          ext x
          simp only [Finset.mem_union, List.mem_toFinset, Finset.mem_insert,
            List.toFinset_nil, Finset.mem_singleton, List.mem_singleton]
          tauto
      · simp only [hv, Bool.false_eq_true, if_false, insertUid]

/-- The collected series identifier list stays duplicate free. -/
theorem foldl_insertUid_nodup (l : List PyVal) :
    ∀ acc : List PyVal, acc.Nodup → (l.foldl insertUid acc).Nodup := by
  induction l with
  | nil => intro acc h; exact h
  | cons v l ih =>
      intro acc h
      refine ih _ ?_
      unfold insertUid
      by_cases hv : v.truthy
      · simp only [hv, if_true]
        by_cases hm : v ∈ acc
        · simp [hm, h]
        · simp [hm, List.nodup_append, h]
      · simp [hv, h]

/-- C3: an archive row is produced exactly when at least one contained file
decodes; its image count is the number of successfully read contained files
and its series count the number of distinct truthy series identifiers
observed among them. -/
theorem zip_counts (pid : PyVal) (zn : String) (inners : List (Option Meta)) :
    (zipAggRow pid zn inners = none ↔ (inners.filterMap id).length = 0) ∧
    (∀ r, zipAggRow pid zn inners = some r →
      lookupD r "ImageCount" = PyVal.int ((inners.filterMap id).length : Int) ∧
      lookupD r "SeriesCount" =
        PyVal.int (((((inners.filterMap id).map fun m => m.seriesInstanceUID).filter
          PyVal.truthy).toFinset.card : Int))) := by
  have hlen :
      (((inners.filterMap id).map fun m => m.seriesInstanceUID).foldl insertUid []).length =
        ((((inners.filterMap id).map fun m => m.seriesInstanceUID).filter
          PyVal.truthy).toFinset.card) := by
    rw [← List.toFinset_card_of_nodup (foldl_insertUid_nodup _ [] List.nodup_nil)]
    rw [foldl_insertUid_toFinset]
    simp
  constructor
  · unfold zipAggRow
    rw [zipFold_eq]
    by_cases h : (inners.filterMap id).length = 0 <;> simp [h]
  · intro r hr
    unfold zipAggRow at hr
    rw [zipFold_eq] at hr
    by_cases h : (inners.filterMap id).length = 0
    · simp [h] at hr
    · simp only [h, beq_iff_eq, if_neg, if_false, Option.some.injEq] at hr
      subst hr
      constructor
      · simp [lookupD]
      · simp [lookupD, hlen]

/-- Witness for C3: three decodable files with series identifiers S1, S1, S2
plus one corrupt entry yield image count 3 and series count 2. -/
theorem zip_counts_witness :
    lookupD cexRow "ImageCount" = PyVal.int 3 ∧
    lookupD cexRow "SeriesCount" = PyVal.int 2 := by
  have h := (zip_counts PyVal.none "case.zip" cexInners).2 cexRow (by decide)
  exact ⟨h.1.trans (by decide), h.2.trans (by decide)⟩

/-- Counterexample for C4: with contained-file patient names "" then "X", the
first non-null value is "", but the aggregate row carries "X" — the dictionary
loop overwrites falsy values, it does not keep the first non-null one. -/
theorem agg_first_nonnull_cex :
    (zipAggRow PyVal.none "a.zip"
        [some (simpleMeta "f1" (PyVal.str "") PyVal.none),
         some (simpleMeta "f2" (PyVal.str "X") PyVal.none)]).map
      (fun r => lookupD r "PatientName") = some (PyVal.str "X") ∧
    firstNonNull [PyVal.str "", PyVal.str "X"] = some (PyVal.str "") ∧
    PyVal.str "X" ≠ PyVal.str "" := by
  refine ⟨by decide, by decide, by decide⟩

/-- C4 (amended): the aggregation dictionary holds, per field, the value of
the first record in traversal order whose value is truthy (non-null and
non-empty); when no record has a truthy value for the field, it holds the
last record value (absent only when no record decoded at all). -/
theorem agg_first_truthy_wins (inners : List (Option Meta)) (f : MField) :
    (zipFold inners).1 f =
      firstTruthyElseLast ((inners.filterMap id).map (fun m => m.get f)) := by
  rw [zipFold_eq]
  show ((inners.filterMap id).foldl aggStep initAgg) f = _
  rw [aggStep_proj]
  show aggregateField _ = _
  exact aggregateField_eq _

/-! ## C1: the fixed output schema -/

/-- Lookup on a cons cell. -/
theorem lookupD_cons (k : String) (v : PyVal) (t : Row) (c : String) :
    lookupD ((k, v) :: t) c = if k = c then v else lookupD t c := by
  by_cases h : k = c
  · subst h
    unfold lookupD
    rw [List.find?_cons_of_pos _ (by simp)]
    simp
  · unfold lookupD
    rw [List.find?_cons_of_neg _ (by simp [h])]
    simp [h]

/-- Lookup on a materialized row. -/
theorem lookupD_selectCols (cs : List String) (r : Row) (c : String) :
    lookupD (selectCols cs r) c = if c ∈ cs then lookupD r c else PyVal.none := by
  induction cs with
  | nil => rfl
  | cons c0 cs ih =>
      show lookupD ((c0, lookupD r c0) :: selectCols cs r) c = _
      rw [lookupD_cons]
      by_cases h : c0 = c
      · subst h; simp
      · rw [if_neg h, ih]
        by_cases hm : c ∈ cs
        · rw [if_pos hm, if_pos (List.mem_cons_of_mem _ hm)]
        · rw [if_neg hm, if_neg (by
            intro hcc
            rcases List.mem_cons.mp hcc with rfl | hh
            · exact h rfl
            · exact hm hh)]

/-- Appending a null column does not change any lookup. -/
theorem lookupD_append_none (r : Row) (k : String) (c : String) :
    lookupD (r ++ [(k, PyVal.none)]) c = lookupD r c := by
  induction r with
  | nil =>
      show lookupD [(k, PyVal.none)] c = lookupD [] c
      rw [lookupD_cons]
      split <;> rfl
  | cons p r ih =>
      rcases p with ⟨k0, v0⟩
      show lookupD ((k0, v0) :: (r ++ [(k, PyVal.none)])) c = _
      rw [lookupD_cons, lookupD_cons]
      by_cases h : k0 = c
      · simp [h]
      · simp [h, ih]

/-- A column named by no pair of a row reads null. -/
theorem lookupD_eq_none (r : Row) (c : String) (h : ∀ p ∈ r, p.1 ≠ c) :
    lookupD r c = PyVal.none := by
  unfold lookupD
  have hf : r.find? (fun p => p.1 == c) = Option.none :=
    List.find?_eq_none.mpr (fun p hp => by simp [h p hp])
  rw [hf]

/-- Key accumulation keeps earlier keys. -/
theorem addKey_sub (acc : List String) (k : String) : ∀ x ∈ acc, x ∈ addKey acc k := by
  intro x hx
  unfold addKey
  split
  · exact hx
  · exact List.mem_append_left _ hx

/-- Key accumulation contains the added key. -/
theorem mem_addKey (acc : List String) (k : String) : k ∈ addKey acc k := by
  unfold addKey
  split
  · assumption
  · simp

/-- Accumulating one row keeps earlier keys. -/
theorem addRowKeys_sub (r : Row) : ∀ acc, ∀ x ∈ acc, x ∈ addRowKeys acc r := by
  induction r with
  | nil => intro acc x hx; exact hx
  | cons p r ih =>
      intro acc x hx
      show x ∈ addRowKeys (addKey acc p.1) r
      exact ih _ x (addKey_sub _ _ x hx)

/-- Accumulating one row covers its keys. -/
theorem addRowKeys_mem (r : Row) : ∀ acc, ∀ p ∈ r, p.1 ∈ addRowKeys acc r := by
  induction r with
  | nil => intro acc p hp; cases hp
  | cons q r ih =>
      intro acc p hp
      rcases List.mem_cons.mp hp with rfl | hp
      · show p.1 ∈ addRowKeys (addKey acc p.1) r
        exact addRowKeys_sub r _ _ (mem_addKey acc p.1)
      · exact ih _ p hp

/-- The key fold keeps earlier keys. -/
theorem foldl_addRowKeys_sub (records : List Row) :
    ∀ acc, ∀ x ∈ acc, x ∈ records.foldl addRowKeys acc := by
  induction records with
  | nil => intro acc x hx; exact hx
  | cons r rs ih => intro acc x hx; exact ih _ x (addRowKeys_sub r acc x hx)

/-- The column union covers every key of every record. -/
theorem foldl_addRowKeys_mem (records : List Row) :
    ∀ acc (r : Row), r ∈ records → ∀ p ∈ r, p.1 ∈ records.foldl addRowKeys acc := by
  induction records with
  | nil => intro acc r hr; cases hr
  | cons r0 rs ih =>
      intro acc r hr p hp
      rcases List.mem_cons.mp hr with rfl | hr
      · exact foldl_addRowKeys_sub rs _ _ (addRowKeys_mem r _ p hp)
      · exact ih _ r hr p hp

/-- A column outside the union reads null in every record. -/
theorem lookupD_none_of_not_mem_unionKeys (records : List Row) (r : Row)
    (hr : r ∈ records) (c : String) (hc : c ∉ unionKeys records) :
    lookupD r c = PyVal.none :=
  lookupD_eq_none r c
    (fun p hp hpc => hc (hpc ▸ foldl_addRowKeys_mem records [] r hr p hp))

/-- Frame construction satisfies the row invariant. -/
theorem dfInv_mkDF (records : List Row) : dfInv (mkDF records) records := by
  unfold dfInv mkDF
  rw [List.forall₂_map_left_iff, List.forall₂_same]
  intro r hr
  constructor
  · intro c
    rw [lookupD_selectCols]
    by_cases hm : c ∈ unionKeys records
    · rw [if_pos hm]
    · rw [if_neg hm, lookupD_none_of_not_mem_unionKeys records r hr c hm]
  · intro c hc
    exact lookupD_none_of_not_mem_unionKeys records r hr c hc

/-- Reindexing to a superset of the columns preserves the row invariant. -/
theorem dfInv_reindex (df : DF) (records : List Row) (cs : List String)
    (hinv : dfInv df records) (hsub : ∀ c ∈ df.cols, c ∈ cs) :
    dfInv (reindexDF df cs) records := by
  unfold dfInv reindexDF
  rw [List.forall₂_map_left_iff]
  refine List.Forall₂.imp ?_ hinv
  intro r' r h
  constructor
  · intro c
    rw [lookupD_selectCols]
    by_cases hm : c ∈ cs
    · rw [if_pos hm, h.1 c]
    · rw [if_neg hm, h.2 c (fun hK => hm (hsub c hK))]
  · intro c hc
    exact h.2 c (fun hK => hc (hsub c hK))

/-- Adding a missing column preserves the row invariant. -/
theorem dfInv_addCol (df : DF) (records : List Row) (c0 : String)
    (hinv : dfInv df records) : dfInv (addCol df c0) records := by
  unfold addCol
  split
  · exact hinv
  · unfold dfInv
    rw [List.forall₂_map_left_iff]
    refine List.Forall₂.imp ?_ hinv
    intro r' r h
    constructor
    · intro c
      rw [lookupD_append_none, h.1 c]
    · intro c hc
      exact h.2 c (fun hK => hc (List.mem_append_left _ hK))

/-- The fixed-column loop preserves the row invariant. -/
theorem dfInv_foldl_addCol (l : List String) :
    ∀ df records, dfInv df records → dfInv (l.foldl addCol df) records := by
  induction l with
  | nil => intro df records h; exact h
  | cons c l ih => intro df records h; exact ih _ _ (dfInv_addCol df records c h)

/-- Adding a column keeps the existing columns. -/
theorem cols_addCol_sub (df : DF) (c0 : String) :
    ∀ x ∈ df.cols, x ∈ (addCol df c0).cols := by
  intro x hx
  unfold addCol
  split
  · exact hx
  · exact List.mem_append_left _ hx

/-- Adding a column makes it present. -/
theorem mem_cols_addCol (df : DF) (c0 : String) : c0 ∈ (addCol df c0).cols := by
  unfold addCol
  split
  · assumption
  · simp

/-- The fixed-column loop keeps the existing columns. -/
theorem cols_foldl_addCol_sub (l : List String) :
    ∀ df : DF, ∀ x ∈ df.cols, x ∈ (l.foldl addCol df).cols := by
  induction l with
  | nil => intro df x hx; exact hx
  | cons c l ih => intro df x hx; exact ih _ _ (cols_addCol_sub df c x hx)

/-- After the fixed-column loop every listed column is present. -/
theorem mem_cols_foldl_addCol (l : List String) :
    ∀ df : DF, ∀ c ∈ l, c ∈ (l.foldl addCol df).cols := by
  induction l with
  | nil => intro df c hc; cases hc
  | cons c0 l ih =>
      intro df c hc
      rcases List.mem_cons.mp hc with rfl | hc
      · exact cols_foldl_addCol_sub l _ _ (mem_cols_addCol df c)
      · exact ih _ c hc

/-- One legacy-reorder step keeps earlier columns. -/
theorem desStep_sub (acc : List String) (c : String) : ∀ x ∈ acc, x ∈ desStep acc c := by
  intro x hx
  unfold desStep
  split
  · exact List.mem_append_left _ hx
  · split
    · exact hx
    · split
      · exact hx
      · exact List.mem_append_left _ hx

/-- The legacy-reorder fold keeps earlier columns. -/
theorem foldl_desStep_sub (l : List String) :
    ∀ acc, ∀ x ∈ acc, x ∈ l.foldl desStep acc := by
  induction l with
  | nil => intro acc x hx; exact hx
  | cons c l ih => intro acc x hx; exact ih _ x (desStep_sub acc c x hx)

/-- The legacy reorder keeps every column other than `StudyDate`. -/
theorem foldl_desStep_mem (l : List String) :
    ∀ acc, ∀ c ∈ l, c ≠ "StudyDate" → c ∈ l.foldl desStep acc := by
  induction l with
  | nil => intro acc c hc; cases hc
  | cons c0 l ih =>
      intro acc c hc hne
      rcases List.mem_cons.mp hc with rfl | hc
      · refine foldl_desStep_sub l _ _ ?_
        unfold desStep
        by_cases h1 : c = "PatientID"
        · rw [if_pos h1]
          simp [h1]
        · rw [if_neg h1, if_neg hne]
          split
          · assumption
          · simp
      · exact ih _ c hc hne

/-- When `PatientID` occurs, the legacy reorder reinstates `StudyDate`. -/
theorem foldl_desStep_SD (l : List String) :
    ∀ acc, "PatientID" ∈ l → "StudyDate" ∈ l.foldl desStep acc := by
  induction l with
  | nil => intro acc h; cases h
  | cons c0 l ih =>
      intro acc h
      rcases List.mem_cons.mp h with h0 | h
      · refine foldl_desStep_sub l _ _ ?_
        unfold desStep
        rw [if_pos h0.symm]
        simp
      · exact ih _ h

/-- With `PatientID` present, the legacy order keeps every column. -/
theorem desiredOrder_sub (cols : List String) (hpid : "PatientID" ∈ cols) :
    ∀ c ∈ cols, c ∈ desiredOrder cols := by
  intro c hc
  by_cases hsd : c = "StudyDate"
  · subst hsd; exact foldl_desStep_SD cols [] hpid
  · exact foldl_desStep_mem cols [] c hc hsd

/-- The legacy reorder preserves the row invariant. -/
theorem dfInv_reorderSD (df : DF) (records : List Row) (hinv : dfInv df records) :
    dfInv (reorderSD df) records := by
  unfold reorderSD
  split
  · rename_i h
    exact dfInv_reindex df records _ hinv (desiredOrder_sub df.cols h.1)
  · exact hinv

/-- Pulling `ProjectID` to the front keeps every column. -/
theorem moveProj_sub (cols : List String) :
    ∀ x ∈ cols, x ∈ "ProjectID" :: cols.erase "ProjectID" := by
  intro x hx
  by_cases h : x = "ProjectID"
  · simp [h]
  · exact List.mem_cons_of_mem _ ((List.mem_erase_of_ne h).mpr hx)

/-- The identifier-first step preserves the row invariant. -/
theorem dfInv_moveProj (df : DF) (records : List Row) (hinv : dfInv df records) :
    dfInv (moveProjFirst df) records := by
  unfold moveProjFirst
  by_cases h : "ProjectID" ∈ df.cols
  · rw [if_pos h]
    rcases hdf : df.cols with _ | ⟨c0, rest⟩
    · exact hinv
    · show dfInv (if c0 = "ProjectID" then df
        else reindexDF df ("ProjectID" :: (c0 :: rest).erase "ProjectID")) records
      by_cases h0 : c0 = "ProjectID"
      · rw [if_pos h0]; exact hinv
      · rw [if_neg h0]
        exact dfInv_reindex df records _ hinv
          (fun c hc => moveProj_sub (c0 :: rest) c (hdf ▸ hc))
  · rw [if_neg h]; exact hinv

/-- The identifier-first step keeps every column. -/
theorem mem_cols_moveProj (df : DF) :
    ∀ x ∈ df.cols, x ∈ (moveProjFirst df).cols := by
  intro x hx
  unfold moveProjFirst
  by_cases h : "ProjectID" ∈ df.cols
  · rw [if_pos h]
    rcases hdf : df.cols with _ | ⟨c0, rest⟩
    · rw [hdf] at hx; cases hx
    · show x ∈ (if c0 = "ProjectID" then df
        else reindexDF df ("ProjectID" :: (c0 :: rest).erase "ProjectID")).cols
      by_cases h0 : c0 = "ProjectID"
      · rw [if_pos h0]; exact hx
      · rw [if_neg h0]
        show x ∈ "ProjectID" :: (c0 :: rest).erase "ProjectID"
        exact moveProj_sub (c0 :: rest) x (hdf ▸ hx)
  · rw [if_neg h]; exact hx

/-- Mapped lists agree when the relation forces pointwise image equality. -/
theorem map_eq_of_forall₂ {α β γ : Type} (f : α → γ) (g : β → γ)
    (l₁ : List α) (l₂ : List β)
    (h : List.Forall₂ (fun a b => f a = g b) l₁ l₂) : l₁.map f = l₂.map g := by
  induction h with
  | nil => rfl
  | cons hab _ ih => simp only [List.map_cons, hab, ih]

/-- C1: for every collected record list, the per-case table has exactly the 16
fixed columns in the fixed order with the identifier first, and every row is
the source record materialized on that schema — a field absent from the source
is present with a null value, never omitted. -/
theorem extract_case_metadata_fixed_schema (records : List Row) :
    extract_case_metadata records =
      DF.mk FIXED_COLUMNS (records.map (selectCols FIXED_COLUMNS)) ∧
    FIXED_COLUMNS.length = 16 ∧
    FIXED_COLUMNS.head? = some "ProjectID" ∧
    (∀ r : Row, (selectCols FIXED_COLUMNS r).map Prod.fst = FIXED_COLUMNS) ∧
    (∀ (r : Row) (c : String), (∀ p ∈ r, p.1 ≠ c) → lookupD r c = PyVal.none) := by
  refine ⟨?_, by decide, by decide, ?_, ?_⟩
  · have h3 :
        dfInv (moveProjFirst (addFixed (reorderSD (mkDF records)))) records :=
      dfInv_moveProj _ _
        (dfInv_foldl_addCol FIXED_COLUMNS _ _ (dfInv_reorderSD _ _ (dfInv_mkDF records)))
    unfold extract_case_metadata reindexDF
    simp only [DF.mk.injEq, true_and]
    apply map_eq_of_forall₂
    refine List.Forall₂.imp ?_ h3
    intro r' r hr
    unfold selectCols
    exact List.map_congr_left (fun c _ => by rw [hr.1 c])
  · intro r
    simp [selectCols, List.map_map, Function.comp_def]
  · intro r c h
    exact lookupD_eq_none r c h

/-- Witness for C1 at a one-record case with a single populated field. -/
theorem extract_case_metadata_fixed_schema_witness :
    extract_case_metadata [[("PatientName", PyVal.str "A")]] =
      DF.mk FIXED_COLUMNS [selectCols FIXED_COLUMNS [("PatientName", PyVal.str "A")]] ∧
    lookupD [("PatientName", PyVal.str "A")] "Modality" = PyVal.none :=
  ⟨(extract_case_metadata_fixed_schema [[("PatientName", PyVal.str "A")]]).1,
   (extract_case_metadata_fixed_schema [[("PatientName", PyVal.str "A")]]).2.2.2.2
     [("PatientName", PyVal.str "A")] "Modality" (by decide)⟩

/-! ## C5, C6: the identity map -/

/-- A fold by max dominates its seed. -/
theorem foldl_max_le_init (l : List Nat) : ∀ acc : Nat, acc ≤ l.foldl max acc := by
  induction l with
  | nil => intro acc; exact le_rfl
  | cons a l ih => intro acc; exact le_trans (le_max_left acc a) (ih (max acc a))

/-- A fold by max dominates every element. -/
theorem mem_le_foldl_max (l : List Nat) : ∀ acc : Nat, ∀ x ∈ l, x ≤ l.foldl max acc := by
  induction l with
  | nil => intro acc x hx; cases hx
  | cons a l ih =>
      intro acc x hx
      rcases List.mem_cons.mp hx with rfl | hx
      · exact le_trans (le_max_right acc x) (foldl_max_le_init l (max acc x))
      · exact ih _ x hx

/-- Appending an entry takes the max with its value. -/
theorem maxValue_append (m : IdMap) (name : String) (v : Nat) :
    maxValue (m ++ [(name, v)]) = max (maxValue m) v := by
  unfold maxValue
  rw [List.map_append, List.foldl_append]
  rfl

/-- A name absent from the map is found in the appended entry. -/
theorem lookupName_append_self (m : IdMap) (name : String) (v : Nat)
    (h : lookupName m name = Option.none) :
    lookupName (m ++ [(name, v)]) name = some v := by
  induction m with
  | nil => simp [lookupName]
  | cons p m ih =>
      by_cases hb : p.1 = name
      · exfalso
        unfold lookupName at h
        rw [List.find?_cons_of_pos _ (by simp [hb])] at h
        simp at h
      · unfold lookupName at h ⊢
        rw [List.find?_cons_of_neg _ (by simp [hb])] at h
        show ((p :: (m ++ [(name, v)])).find? _).map _ = _
        rw [List.find?_cons_of_neg _ (by simp [hb])]
        exact ih h

/-- C5: with the running maximum equal to the maximum assigned value, a name
already in the mapping keeps its identifier and nothing changes; a new name
takes the successor of the maximum (1 on an empty map), is recorded, and the
maximum is updated accordingly; every assigned value is bounded by the
maximum. -/
theorem get_or_create_spec (m : IdMap) (name : String) :
    (∀ pid, lookupName m name = some pid →
      get_or_create m (maxValue m) name = (pid, m, maxValue m)) ∧
    (lookupName m name = Option.none →
      get_or_create m (maxValue m) name =
        (maxValue m + 1, m ++ [(name, maxValue m + 1)], maxValue m + 1) ∧
      lookupName (m ++ [(name, maxValue m + 1)]) name = some (maxValue m + 1) ∧
      maxValue (m ++ [(name, maxValue m + 1)]) = maxValue m + 1) ∧
    (∀ p ∈ m, p.2 ≤ maxValue m) ∧
    (m = [] → get_or_create m 0 name = (1, [(name, 1)], 1)) := by
  refine ⟨?_, ?_, ?_, ?_⟩
  · intro pid h
    unfold get_or_create
    rw [h]
  · intro h
    unfold get_or_create
    rw [h]
    refine ⟨rfl, lookupName_append_self m name _ h, ?_⟩
    rw [maxValue_append]
    exact Nat.max_eq_right (Nat.le_succ _)
  · intro p hp
    exact mem_le_foldl_max _ 0 p.2 (List.mem_map_of_mem Prod.snd hp)
  · intro h
    subst h
    rfl

/-- Witness for C5: after A maps to 1 and B to 2, a new case C gets 3 and is
recorded; re-requesting A returns 1 with the map unchanged. -/
theorem get_or_create_spec_witness :
    get_or_create [("A", 1), ("B", 2)] (maxValue [("A", 1), ("B", 2)]) "C" =
      (3, [("A", 1), ("B", 2), ("C", 3)], 3) ∧
    get_or_create [("A", 1), ("B", 2)] (maxValue [("A", 1), ("B", 2)]) "A" =
      (1, [("A", 1), ("B", 2)], maxValue [("A", 1), ("B", 2)]) := by
  constructor
  · exact ((get_or_create_spec [("A", 1), ("B", 2)] "C").2.1 (by decide)).1.trans (by decide)
  · exact (get_or_create_spec [("A", 1), ("B", 2)] "A").1 1 (by decide)

/-- C6: loading returns the stored mapping, an absent or unreadable store
yields the empty mapping (never an error — loading is total), and a saved
mapping loads back unchanged. -/
theorem idmap_load_save (store : Option IdMap) (m : IdMap) :
    (store = Option.none → load_projectid_map store = []) ∧
    (store = some m → load_projectid_map store = m) ∧
    load_projectid_map (save_projectid_map m) = m := by
  refine ⟨fun h => by rw [h]; rfl, fun h => by rw [h]; rfl, rfl⟩

/-- Witness for C6 at a concrete store. -/
theorem idmap_load_save_witness :
    load_projectid_map Option.none = [] ∧
    load_projectid_map (some [("A", 1)]) = [("A", 1)] ∧
    load_projectid_map (save_projectid_map [("A", 1)]) = [("A", 1)] :=
  ⟨(idmap_load_save Option.none []).1 rfl,
   (idmap_load_save (some [("A", 1)]) [("A", 1)]).2.1 rfl,
   (idmap_load_save (some []) [("A", 1)]).2.2⟩

/-! ## C7: timeout isolation -/

/-- The per-case loop in closed form: collected tables are exactly those of
cases that finished with output, the summary exactly the timed-out names. -/
theorem foldl_caseStep (cases : List (String × WorkerResult)) :
    ∀ acc : List (List Row) × List String,
      cases.foldl caseStep acc =
        (acc.1 ++ cases.filterMap (fun cw =>
            match cw.2 with
            | .finished (some t) => some t
            | _ => Option.none),
         acc.2 ++ cases.filterMap (fun cw =>
            match cw.2 with
            | .timedOut _ => some cw.1
            | _ => Option.none)) := by
  induction cases with
  | nil => intro acc; simp
  | cons cw rest ih =>
      intro acc
      rcases cw with ⟨name, wr⟩
      cases wr with
      | timedOut t =>
          show List.foldl caseStep (acc.1, acc.2 ++ [name]) rest = _
          rw [ih]
          simp [List.filterMap_cons]
      | finished t =>
          cases t with
          | none =>
              show List.foldl caseStep acc rest = _
              rw [ih]
              simp [List.filterMap_cons]
          | some tab =>
              show List.foldl caseStep (acc.1 ++ [tab], acc.2) rest = _
              rw [ih]
              simp [List.filterMap_cons]

/-- C7: a timed-out case contributes no table and no rows to the merged
output — its temporary output is deleted unread — and its name lands in the
timeout summary, while every case that finished with output keeps its table
in the merge, in batch order. -/
theorem timeout_isolation (cases : List (String × WorkerResult)) :
    (processCases cases).1 =
      cases.filterMap (fun cw =>
        match cw.2 with
        | .finished (some t) => some t
        | _ => Option.none) ∧
    (processCases cases).2 =
      cases.filterMap (fun cw =>
        match cw.2 with
        | .timedOut _ => some cw.1
        | _ => Option.none) ∧
    mergedRows cases =
      (cases.filterMap (fun cw =>
        match cw.2 with
        | .finished (some t) => some t
        | _ => Option.none)).flatten ∧
    (∀ name out, (name, WorkerResult.timedOut out) ∈ cases →
      name ∈ (processCases cases).2) ∧
    (∀ name tab, (name, WorkerResult.finished (some tab)) ∈ cases →
      tab ∈ (processCases cases).1) := by
  have hp : processCases cases =
      (cases.filterMap (fun cw =>
        match cw.2 with
        | .finished (some t) => some t
        | _ => Option.none),
       cases.filterMap (fun cw =>
        match cw.2 with
        | .timedOut _ => some cw.1
        | _ => Option.none)) := by
    unfold processCases
    rw [foldl_caseStep]
    simp
  refine ⟨by rw [hp], by rw [hp], by unfold mergedRows; rw [hp], ?_, ?_⟩
  · intro name out h
    rw [hp]
    exact List.mem_filterMap.mpr ⟨(name, WorkerResult.timedOut out), h, rfl⟩
  · intro name tab h
    rw [hp]
    exact List.mem_filterMap.mpr ⟨(name, WorkerResult.finished (some tab)), h, rfl⟩

/-- Witness for C7: a two-case batch where the first case times out (with a
partial temporary file) and the second finishes; the merge holds only the
second table and the summary only the first name. -/
theorem timeout_isolation_witness :
    (processCases
        [("slow", WorkerResult.timedOut (some [[("ProjectID", PyVal.int 1)]])),
         ("ok", WorkerResult.finished (some [[("ProjectID", PyVal.int 2)]]))]).1 =
      [[[("ProjectID", PyVal.int 2)]]] ∧
    (processCases
        [("slow", WorkerResult.timedOut (some [[("ProjectID", PyVal.int 1)]])),
         ("ok", WorkerResult.finished (some [[("ProjectID", PyVal.int 2)]]))]).2 =
      ["slow"] ∧
    "slow" ∈ (processCases
        [("slow", WorkerResult.timedOut (some [[("ProjectID", PyVal.int 1)]])),
         ("ok", WorkerResult.finished (some [[("ProjectID", PyVal.int 2)]]))]).2 :=
  ⟨((timeout_isolation
      [("slow", WorkerResult.timedOut (some [[("ProjectID", PyVal.int 1)]])),
       ("ok", WorkerResult.finished (some [[("ProjectID", PyVal.int 2)]]))]).1).trans
    (by decide),
   ((timeout_isolation
      [("slow", WorkerResult.timedOut (some [[("ProjectID", PyVal.int 1)]])),
       ("ok", WorkerResult.finished (some [[("ProjectID", PyVal.int 2)]]))]).2.1).trans
    (by decide),
   (timeout_isolation
      [("slow", WorkerResult.timedOut (some [[("ProjectID", PyVal.int 1)]])),
       ("ok", WorkerResult.finished (some [[("ProjectID", PyVal.int 2)]]))]).2.2.2.1
      "slow" (some [[("ProjectID", PyVal.int 1)]]) (by decide)⟩

/-! ## C10: deterministic case order and identifier assignment -/

instance : IsTotal DirEntry entryLE := ⟨fun a b => le_total a.name b.name⟩

instance : IsTrans DirEntry entryLE := ⟨fun _ _ _ hab hbc => le_trans hab hbc⟩

/-- C10: the case iterator yields exactly the names of the directory entries,
in ascending lexicographic order, skipping non-directories; hence it is a
function of the entry set alone, and the main loop assigns ProjectID i to the
i-th name of that sorted list, identically across runs over the same entries. -/
theorem iter_case_dirs_det (entries : List DirEntry) :
    (iter_case_dirs entries).Sorted (· ≤ ·) ∧
    (iter_case_dirs entries).Perm
      ((entries.filter (fun e => e.isDir)).map (fun e => e.name)) ∧
    (∀ entries2 : List DirEntry, entries.Perm entries2 →
      iter_case_dirs entries = iter_case_dirs entries2 ∧
      assignProjectIds entries = assignProjectIds entries2) ∧
    (assignProjectIds entries).map Prod.fst =
      List.range' 1 (iter_case_dirs entries).length ∧
    (assignProjectIds entries).map Prod.snd = iter_case_dirs entries := by
  have hsorted : ∀ es : List DirEntry, (iter_case_dirs es).Sorted (· ≤ ·) := by
    intro es
    unfold iter_case_dirs
    rw [List.Sorted, List.pairwise_map]
    exact List.Pairwise.filter _ (List.sorted_insertionSort entryLE es)
  have hperm : ∀ es : List DirEntry,
      (iter_case_dirs es).Perm ((es.filter (fun e => e.isDir)).map (fun e => e.name)) := by
    intro es
    unfold iter_case_dirs
    exact ((List.perm_insertionSort entryLE es).filter _).map _
  refine ⟨hsorted entries, hperm entries, ?_, ?_, ?_⟩
  · intro entries2 h2
    have hpp : (iter_case_dirs entries).Perm (iter_case_dirs entries2) :=
      ((hperm entries).trans ((h2.filter _).map _)).trans (hperm entries2).symm
    have heq : iter_case_dirs entries = iter_case_dirs entries2 :=
      List.eq_of_perm_of_sorted hpp (hsorted entries) (hsorted entries2)
    exact ⟨heq, by unfold assignProjectIds; rw [heq]⟩
  · unfold assignProjectIds
    exact List.enumFrom_map_fst 1 (iter_case_dirs entries)
  · unfold assignProjectIds
    exact List.enumFrom_map_snd 1 (iter_case_dirs entries)

/-- Witness for C10: two listings of the same entries in different order give
the same sorted case list and the same identifier assignment. -/
theorem iter_case_dirs_det_witness :
    iter_case_dirs
        [DirEntry.mk "b" true, DirEntry.mk "a" true, DirEntry.mk "x" false] =
      ["a", "b"] ∧
    iter_case_dirs
        [DirEntry.mk "b" true, DirEntry.mk "a" true, DirEntry.mk "x" false] =
      iter_case_dirs
        [DirEntry.mk "x" false, DirEntry.mk "a" true, DirEntry.mk "b" true] ∧
    assignProjectIds
        [DirEntry.mk "b" true, DirEntry.mk "a" true, DirEntry.mk "x" false] =
      [(1, "a"), (2, "b")] :=
  ⟨by decide,
   ((iter_case_dirs_det
      [DirEntry.mk "b" true, DirEntry.mk "a" true, DirEntry.mk "x" false]).2.2.1
      [DirEntry.mk "x" false, DirEntry.mk "a" true, DirEntry.mk "b" true]
      (by decide)).1,
   by decide⟩
